import Mathlib

/- Verification of the fairsea trajectory-similarity and clustering engine.

This file gives a shallow embedding, in Lean 4, of the core analysis code of
the fairsea repository:

* `src/fairsea/analysis/scripts/compress_and_compare_voyages.py`
  (voyage simplification, pairwise DTW distance matrix, triangular
  work-item indexing);
* `src/fairsea/analysis/scripts/advanced/cluster_predict.py`
  (incremental classification of a new voyage against a training corpus);
* `src/fairsea/analysis/scripts/advanced/prediction_validation.py`
  (k-fold evaluation harness);
* `src/fairsea/analysis/scripts/settings.py` (configuration validation).

Numeric values that are floating point in the source (coordinates, DTW
distances, tolerances) are modelled as rationals, and external numeric
routines (the dtw package distance, the rdp perpendicular distance) are
taken as parameters, since the properties proved here do not depend on
them.  Machine integers are modelled as Nat or Int with the exact
arithmetic that Python integers use.
-/

/-- Points are pairs of coordinates (longitude, latitude), modelled as
rationals in place of IEEE floats. -/
abbrev Pt : Type := ℚ × ℚ

/-- The flat work-item index computed for pair (i, j) with corpus size N in
`calc_proximity_matrix`, exactly as in the source:
`n_voyages * i - int(i * (i + 1) / 2) + j - i - 1`.
For 0 <= i < j < N every intermediate value of the Python expression is
non-negative and i * (i + 1) is even, so Nat subtraction and Nat floor
division agree with the Python integer arithmetic. -/
def flat_index (N i j : ℕ) : ℕ :=
  N * i - i * (i + 1) / 2 + j - i - 1

/-- Inverse of `flat_index`: recovers the pair (i, j) from a flat index.
Used to establish that `flat_index` is a bijection. -/
def unflatten : ℕ → ℕ → ℕ × ℕ
  | 0, _ => (0, 0)
  | 1, _ => (0, 0)
  | n + 2, k =>
    if k < n + 1 then (0, k + 1)
    else ((unflatten (n + 1) (k - (n + 1))).1 + 1,
          (unflatten (n + 1) (k - (n + 1))).2 + 1)

/-- Modelled from the spec: the external rdp package is not part of the
repository, so the Douglas-Peucker simplifier of section 4.1 of the spec is
embedded here.  The list of indices of the open interior of a sequence of
length n, namely 1, ..., n - 2. -/
def interiorIdx (n : ℕ) : List ℕ :=
  (List.range (n - 2)).map (· + 1)

/-- Modelled from the spec: select the index with the maximum value of f,
keeping the earliest index on ties (the running maximum is replaced only
when a strictly larger value appears, as in the rdp package loop). -/
def pickMax (f : ℕ → ℚ) (l : List ℕ) (init : ℕ × ℚ) : ℕ × ℚ :=
  l.foldl (fun best i => if f i > best.2 then (i, f i) else best) init

/-- Modelled from the spec: the interior point of maximum perpendicular
deviation from the segment joining p0 and lst, together with that
deviation.  When the open interior is empty the pair (0, 0) is returned;
index 0 is never an interior index, so it plays the role of the
`index = -1` marker of the rdp package loop. -/
def rdpArgmax (dist : Pt → Pt → Pt → ℚ) (pts : List Pt) (p0 lst : Pt) :
    ℕ × ℚ :=
  match interiorIdx pts.length with
  | [] => (0, 0)
  | c :: cs =>
    pickMax (fun i => dist (pts.getD i p0) p0 lst) cs
      (c, dist (pts.getD c p0) p0 lst)

/-- Modelled from the spec: Douglas-Peucker simplification (section 4.1),
standing in for the external `rdp` function called by
`compute_compressed_voyage`.  The first and last point are always retained;
the interior point of maximum perpendicular deviation is found; if that
deviation exceeds epsilon the sequence is split there and both halves are
simplified, otherwise all interior points are discarded.  The perpendicular
distance function `dist point segStart segEnd` is a parameter, since the
floating-point formula is external and the properties proved here hold for
every choice of it.  The fuel argument bounds the recursion depth; `rdp`
below supplies fuel equal to the input length, which is sufficient because
every split strictly shortens both halves. -/
def rdpF (dist : Pt → Pt → Pt → ℚ) (eps : ℚ) : ℕ → List Pt → List Pt
  | 0, pts => pts
  | fuel + 1, pts =>
    match pts with
    | [] => []
    | [p] => [p]
    | p0 :: p1 :: rest =>
      let pts := p0 :: p1 :: rest
      let lst := pts.getLastD p0
      let km := rdpArgmax dist pts p0 lst
      if km.1 ≠ 0 ∧ km.2 > eps then
        (rdpF dist eps fuel (pts.take (km.1 + 1))).dropLast ++
          rdpF dist eps fuel (pts.drop km.1)
      else [p0, lst]

/-- Simplification of a point sequence: `rdpF` with sufficient fuel. -/
def rdp (dist : Pt → Pt → Pt → ℚ) (eps : ℚ) (pts : List Pt) : List Pt :=
  rdpF dist eps pts.length pts

/-- From `compute_compressed_voyage` in compress_and_compare_voyages.py:
compress one voyage with the RDP algorithm and return the pair of the
voyage id and the compressed coordinates. -/
def compute_compressed_voyage (dist : Pt → Pt → Pt → ℚ) (vid : String)
    (coords : List Pt) (epsilon : ℚ) : String × List Pt :=
  (vid, rdp dist epsilon coords)

/-- From `compress_voyages` in compress_and_compare_voyages.py: under the
`name == "__main__"` multiprocessing guard, compress every voyage and keep
those whose compressed form has more than one point; with any other name
the guarded block is skipped and the function returns None. -/
def compress_voyages (dist : Pt → Pt → Pt → ℚ)
    (voyages : List (String × List Pt)) (epsilon : ℚ) (name : String) :
    Option (List (String × List Pt)) :=
  if name = "__main__" then
    some ((voyages.map fun p => compute_compressed_voyage dist p.1 p.2 epsilon).filter
      fun p => 1 < p.2.length)
  else none

/-- From `proximity_parallel` in compress_and_compare_voyages.py: one
work item, returning the indices together with the DTW distance.  The DTW
distance of the pair (i, j) is abstracted as `d i j`, since the dtw package
is external. -/
def proximity_parallel (d : ℕ → ℕ → ℚ) (i j : ℕ) : ℕ × ℕ × ℚ :=
  (i, j, d i j)

/-- The list of work items produced by the nested loops of
`calc_proximity_matrix`: i ranges over 0, ..., N - 2 and j over
i + 1, ..., N - 1.  The items are listed in loop order, which by the
triangular formula is also flat-index order. -/
def pairItems (N : ℕ) (d : ℕ → ℕ → ℚ) : List (ℕ × ℕ × ℚ) :=
  (List.range (N - 1)).flatMap fun i =>
    (List.range' (i + 1) (N - 1 - i)).map fun j => proximity_parallel d i j

/-- One assignment `distances[i, j] = item[2]` of the matrix-assembly loop
of `calc_proximity_matrix`, on a matrix represented as a function. -/
def setEntry (m : ℕ → ℕ → ℚ) (item : ℕ × ℕ × ℚ) : ℕ → ℕ → ℚ :=
  fun a b => if a = item.1 ∧ b = item.2.1 then item.2.2 else m a b

/-- From `calc_proximity_matrix` in compress_and_compare_voyages.py: under
the `name == "__main__"` guard, start from the all-zero matrix, write every
computed pair distance into its upper-triangular slot, and add the
transpose (`distances += distances.T`, which numpy evaluates as an
overlap-safe elementwise sum).  With any other name the guarded block is
skipped and the function returns None. -/
def calc_proximity_matrix (d : ℕ → ℕ → ℚ) (N : ℕ) (name : String) :
    Option (ℕ → ℕ → ℚ) :=
  if name = "__main__" then
    let distances := (pairItems N d).foldl setEntry fun _ _ => 0
    some fun i j => distances i j + distances j i
  else none

/-- From `calc_extra_distance` in cluster_predict.py: the vector of DTW
distances from every training voyage (in corpus order) to the new voyage.
The corpus dictionary is modelled as an association list; the dtw package
distance is the parameter `dtwD`. -/
def calc_extra_distance (dtwD : List Pt → List Pt → ℚ)
    (train_voyages : List (String × List Pt)) (new_voyage : List Pt) :
    List ℚ :=
  train_voyages.map fun kv => dtwD kv.2 new_voyage

/-- From `expand_distance_matrix` in cluster_predict.py: append the new
distance vector as a last row (`np.append` along axis 0), then append the
vector extended with a zero as a last column (`np.append` along axis 1).
Matrices are lists of rows. -/
def expand_distance_matrix (orig_matrix : List (List ℚ))
    (new_distances : List ℚ) : List (List ℚ) :=
  let temp_matrix := orig_matrix ++ [new_distances]
  let temp_vector := new_distances ++ [0]
  List.zipWith (fun row x => row ++ [x]) temp_matrix temp_vector

/-- Entry (i, j) of a matrix represented as a list of rows. -/
def matEntry (M : List (List ℚ)) (i j : ℕ) : ℚ :=
  (M.getD i []).getD j 0

/-- Modelled from the spec: the neighborhood of point i in the DBSCAN run
of `predict_single_voyage` (sklearn.cluster.DBSCAN is external), namely all
points of the precomputed matrix within distance eps, the point itself
included (section 4.3 of the spec). -/
def nbhd (N : ℕ) (m : ℕ → ℕ → ℚ) (eps : ℚ) (i : ℕ) : List ℕ :=
  (List.range N).filter fun j => m i j ≤ eps

/-- Modelled from the spec: a point is a core point when it has at least
minPts neighbors, itself included (section 4.3). -/
def isCore (N : ℕ) (m : ℕ → ℕ → ℚ) (eps : ℚ) (minPts : ℕ) (i : ℕ) : Bool :=
  minPts ≤ (nbhd N m eps i).length

/-- Modelled from the spec: the inner stack-driven expansion of one DBSCAN
cluster (the dbscan_inner loop of sklearn), with explicit fuel.  An
unlabeled point is given the current cluster label; if it is a core point
its unlabeled neighbors are pushed; the loop continues until the stack is
empty. -/
def dfs (core : ℕ → Bool) (nb : ℕ → List ℕ) (labelNum : ℤ) :
    ℕ → List ℤ → List ℕ → ℕ → List ℤ
  | 0, labels, _, _ => labels
  | fuel + 1, labels, stack, i =>
    let labels1 := if labels.getD i 0 = -1 then labels.set i labelNum else labels
    let stack1 :=
      if labels.getD i 0 = -1 ∧ core i then
        stack ++ ((nb i).filter fun v => labels1.getD v 0 = -1)
      else stack
    match stack1 with
    | [] => labels1
    | v :: s2 => dfs core nb labelNum fuel labels1 s2 v

/-- Modelled from the spec: the outer DBSCAN loop over all points, starting
a new cluster at every not-yet-labeled core point. -/
def dbscanOuter (core : ℕ → Bool) (nb : ℕ → List ℕ) (fuelInner : ℕ) :
    List ℕ → List ℤ → ℤ → List ℤ
  | [], labels, _ => labels
  | i :: is, labels, labelNum =>
    if labels.getD i 0 = -1 ∧ core i then
      dbscanOuter core nb fuelInner is
        (dfs core nb labelNum fuelInner labels [] i) (labelNum + 1)
    else
      dbscanOuter core nb fuelInner is labels labelNum

/-- Modelled from the spec: DBSCAN fit_predict over an N x N precomputed
distance matrix.  All labels start at the noise sentinel -1; cluster ids
are assigned from 0 upward in discovery order. -/
def dbscan_fit_predict (N : ℕ) (m : ℕ → ℕ → ℚ) (eps : ℚ) (minPts : ℕ) :
    List ℤ :=
  dbscanOuter (isCore N m eps minPts) (nbhd N m eps) (N * N + N + 1)
    (List.range N) (List.replicate N (-1)) 0

/-- From `predict_single_voyage` in cluster_predict.py: compute the
distance vector from the new voyage to the training corpus, extend the
training matrix, run DBSCAN (sklearn default min_samples = 5, since the
source passes only eps and the metric) on the extended matrix, and return
the label of the last row.  The source contains no emptiness check and no
raise statement, so the embedding is a total function into the labels. -/
def predict_single_voyage (dtwD : List Pt → List Pt → ℚ)
    (train_voyages : List (String × List Pt))
    (distance_matrix : List (List ℚ)) (new_voyage : List Pt)
    (epsilon : ℚ) : ℤ :=
  let nd := calc_extra_distance dtwD train_voyages new_voyage
  let nm := expand_distance_matrix distance_matrix nd
  let labels := dbscan_fit_predict nm.length (matEntry nm) epsilon 5
  labels.getLastD (-1)

/-- From `make_binary_class` in cluster_predict.py: noise labels (negative
cluster ids) become 1, clustered labels become 0. -/
def make_binary_class (predictions : List (String × ℤ)) : List (String × ℤ) :=
  predictions.map fun kv => (kv.1, if kv.2 < 0 then 1 else 0)

/-- Python dict update on association lists with unique keys: keys of base
keep their position, values are overridden by upd where present, and keys
of upd missing from base are appended in order. -/
def dict_update (base upd : List (String × ℤ)) : List (String × ℤ) :=
  (base.map fun kv =>
    match upd.find? (fun u => u.1 == kv.1) with
    | some u => (kv.1, u.2)
    | none => kv) ++
  upd.filter fun u => !(base.any fun kv => kv.1 == u.1)

/-- From `do_k_fold_validation` in prediction_validation.py: the predicted
label set over which the per-fold confusion matrix is computed.  The
source binarizes both prediction dicts and then builds
`y_pred = test_bin.copy()` followed by `y_pred.update(test_bin)`, so the
train binarization is computed but never merged in. -/
def do_k_fold_y_pred (train_pred test_pred : List (String × ℤ)) :
    List (String × ℤ) :=
  let _train_bin := make_binary_class train_pred
  let test_bin := make_binary_class test_pred
  dict_update test_bin test_bin

/-- From the `__main__` block of cluster_predict.py: the single-split
harness builds `y_pred = train_bin.copy()` followed by
`y_pred.update(test_bin)`, covering the union of train and test ids. -/
def main_split_y_pred (train_pred test_pred : List (String × ℤ)) :
    List (String × ℤ) :=
  dict_update (make_binary_class train_pred) (make_binary_class test_pred)

/-- From the `check_positive` field validator of Settings in settings.py:
raise for strictly negative values, with the message text of the source
stating that values should be positive; any other value, zero included, is
accepted and returned. -/
def check_positive (value : ℚ) : Except String ℚ :=
  if value < 0 then Except.error "Value should be positive"
  else Except.ok value

/-- A numpy value held in the array store: a 1-D vector or a 2-D matrix. -/
inductive NpVal where
  | vec (v : List ℚ)
  | mat (m : List (List ℚ))
deriving DecidableEq

/-- An explicit store of numpy arrays, used to express which arrays a call
writes: ids below next are allocated, allocation hands out fresh ids. -/
structure Heap where
  arrs : ℕ → Option NpVal
  next : ℕ

/-- Allocate a fresh array and return its id; nothing else is written. -/
def halloc (h : Heap) (v : NpVal) : ℕ × Heap :=
  (h.next, ⟨fun i => if i = h.next then some v else h.arrs i, h.next + 1⟩)

/-- Read an array from the store. -/
def hget (h : Heap) (i : ℕ) : NpVal :=
  (h.arrs i).getD (NpVal.vec [])

/-- View a store value as a vector. -/
def asVec : NpVal → List ℚ
  | NpVal.vec v => v
  | NpVal.mat _ => []

/-- View a store value as a matrix. -/
def asMat : NpVal → List (List ℚ)
  | NpVal.vec _ => []
  | NpVal.mat m => m

/-- Store-level `calc_extra_distance`: `np.array(distances)` allocates one
fresh vector; the training voyages are only read. -/
def calc_extra_distanceH (dtwD : List Pt → List Pt → ℚ) (h : Heap)
    (train_voyages : List (String × List Pt)) (new_voyage : List Pt) :
    ℕ × Heap :=
  halloc h (NpVal.vec (calc_extra_distance dtwD train_voyages new_voyage))

/-- Store-level `expand_distance_matrix`: each of the two `np.append` calls
and the intermediate vector allocates a fresh array (numpy append always
returns a new array and never writes through its arguments); the original
matrix is only read. -/
def expand_distance_matrixH (h : Heap) (origId ndId : ℕ) : ℕ × Heap :=
  let orig := asMat (hget h origId)
  let newd := asVec (hget h ndId)
  let r1 := halloc h (NpVal.mat (orig ++ [newd]))
  let r2 := halloc r1.2 (NpVal.vec (newd ++ [0]))
  let tm := asMat (hget r2.2 r1.1)
  let tv := asVec (hget r2.2 r2.1)
  halloc r2.2 (NpVal.mat (List.zipWith (fun row x => row ++ [x]) tm tv))

/-- Store-level `predict_single_voyage`: the distance vector and the
extended matrix are freshly allocated, DBSCAN only reads the extended
matrix, and a single label is returned. -/
def predict_single_voyageH (dtwD : List Pt → List Pt → ℚ) (h : Heap)
    (train_voyages : List (String × List Pt)) (matrixId : ℕ)
    (new_voyage : List Pt) (epsilon : ℚ) : ℤ × Heap :=
  let r1 := calc_extra_distanceH dtwD h train_voyages new_voyage
  let r2 := expand_distance_matrixH r1.2 matrixId r1.1
  let nm := asMat (hget r2.2 r2.1)
  ((dbscan_fit_predict nm.length (matEntry nm) epsilon 5).getLastD (-1), r2.2)

/- Theorems about the definitions above. -/

theorem flat_index_zero (N j : ℕ) : flat_index N 0 j = j - 1 := by
  simp [flat_index]

theorem flat_index_succ (N i j : ℕ) (hij : i < j) (hjN : j < N) :
    flat_index (N + 1) (i + 1) (j + 1) = N + flat_index N i j := by
  have e4 : (N + 1) * (i + 1) = N * i + N + i + 1 := by ring
  have e6 : (i + 1) * (i + 1 + 1) = i * (i + 1) + 2 * (i + 1) := by ring
  have hiN : i + 1 ≤ N := by omega
  have e5 : i * (i + 1) ≤ N * i := by
    calc i * (i + 1) ≤ i * N := Nat.mul_le_mul_left i hiN
    _ = N * i := Nat.mul_comm i N
  have e7 : i * (i + 1) / 2 ≤ N * i := le_trans (Nat.div_le_self _ _) e5
  unfold flat_index
  rw [e4, e6, Nat.add_mul_div_left _ _ (by norm_num : (0:ℕ) < 2)]
  generalize hT : i * (i + 1) / 2 = t at e7 ⊢
  generalize hM : N * i = m at e7 ⊢
  omega

theorem tri_card (n : ℕ) : (n + 1) * n / 2 = n + n * (n - 1) / 2 := by
  cases n with
  | zero => rfl
  | succ m =>
    have e : (m + 1 + 1) * (m + 1) = (m + 1) * m + 2 * (m + 1) := by ring
    rw [e, Nat.add_mul_div_left _ _ (by norm_num : (0:ℕ) < 2),
      Nat.add_sub_cancel]
    exact Nat.add_comm _ _

theorem flat_index_lt (i : ℕ) : ∀ N j, i < j → j < N →
    flat_index N i j < N * (N - 1) / 2 := by
  induction i with
  | zero =>
    intro N j h1 h2
    rw [flat_index_zero]
    have h3 : 2 * (N - 1) ≤ N * (N - 1) :=
      mul_le_mul_right' (by omega : 2 ≤ N) (N - 1)
    generalize hA : N * (N - 1) = A at h3
    omega
  | succ i ih =>
    intro N j h1 h2
    obtain ⟨N0, rfl⟩ : ∃ N0, N = N0 + 1 := ⟨N - 1, by omega⟩
    obtain ⟨j0, rfl⟩ : ∃ j0, j = j0 + 1 := ⟨j - 1, by omega⟩
    rw [flat_index_succ N0 i j0 (by omega) (by omega)]
    have h4 := ih N0 j0 (by omega) (by omega)
    rw [Nat.add_sub_cancel, tri_card]
    omega

theorem unflatten_spec : ∀ N, ∀ k, k < N * (N - 1) / 2 →
    (unflatten N k).1 < (unflatten N k).2 ∧ (unflatten N k).2 < N ∧
      flat_index N (unflatten N k).1 (unflatten N k).2 = k := by
  intro N
  induction N using Nat.strong_induction_on with
  | _ N ih =>
    rcases N with _ | N1
    · intro k hk; norm_num at hk
    rcases N1 with _ | n
    · intro k hk; norm_num at hk
    intro k hk
    by_cases h : k < n + 1
    · have hu : unflatten (n + 2) k = (0, k + 1) := by
        simp [unflatten, h]
      rw [hu]
      refine ⟨by omega, by omega, ?_⟩
      rw [flat_index_zero]
      omega
    · have hcard : (n + 2) * (n + 2 - 1) / 2 = (n + 1) + (n + 1) * n / 2 := by
        have := tri_card (n + 1)
        simpa using this
      have hk2 : k - (n + 1) < (n + 1) * ((n + 1) - 1) / 2 := by
        rw [hcard] at hk
        simpa using by omega
      have ih1 := ih (n + 1) (by omega) (k - (n + 1)) hk2
      have hu : unflatten (n + 2) k =
          ((unflatten (n + 1) (k - (n + 1))).1 + 1,
           (unflatten (n + 1) (k - (n + 1))).2 + 1) := by
        simp [unflatten, h]
      rw [hu]
      obtain ⟨a1, a2, a3⟩ := ih1
      refine ⟨by omega, by omega, ?_⟩
      simp only
      rw [flat_index_succ _ _ _ a1 a2, a3]
      omega

theorem unflatten_flat (i : ℕ) : ∀ N j, i < j → j < N →
    unflatten N (flat_index N i j) = (i, j) := by
  induction i with
  | zero =>
    intro N j h1 h2
    obtain ⟨n, rfl⟩ : ∃ n, N = n + 2 := ⟨N - 2, by omega⟩
    rw [flat_index_zero]
    have h : j - 1 < n + 1 := by omega
    have hu : unflatten (n + 2) (j - 1) = (0, j - 1 + 1) := by
      simp [unflatten, h]
    rw [hu]
    simp [Prod.ext_iff]
    omega
  | succ i ih =>
    intro N j h1 h2
    obtain ⟨n, rfl⟩ : ∃ n, N = n + 2 := ⟨N - 2, by omega⟩
    obtain ⟨j0, rfl⟩ : ∃ j0, j = j0 + 1 := ⟨j - 1, by omega⟩
    rw [flat_index_succ (n + 1) i j0 (by omega) (by omega)]
    have hge : ¬ (n + 1 + flat_index (n + 1) i j0 < n + 1) := by omega
    have hsub : n + 1 + flat_index (n + 1) i j0 - (n + 1) =
        flat_index (n + 1) i j0 := by omega
    have hu : unflatten (n + 2) (n + 1 + flat_index (n + 1) i j0) =
        ((unflatten (n + 1) (flat_index (n + 1) i j0)).1 + 1,
         (unflatten (n + 1) (flat_index (n + 1) i j0)).2 + 1) := by
      simp [unflatten, hge, hsub]
    rw [hu, ih (n + 1) j0 (by omega) (by omega)]

/-- C1: for every corpus size N >= 2 the triangular flat-index formula
`N * i - i * (i + 1) / 2 + j - i - 1` (a pure function of (i, j, N)) maps
the pairs (i, j) with i < j < N bijectively onto 0, ..., N * (N - 1) / 2 - 1:
each pair lands inside the range, distinct pairs land on distinct indices,
and every index in the range is hit, so every work-item slot is filled
exactly once regardless of worker completion order. -/
theorem flat_index_bijection (N : ℕ) (_hN : 2 ≤ N) :
    (∀ i j, i < j → j < N → flat_index N i j < N * (N - 1) / 2) ∧
    (∀ i j k l, i < j → j < N → k < l → l < N →
      flat_index N i j = flat_index N k l → i = k ∧ j = l) ∧
    (∀ m, m < N * (N - 1) / 2 → ∃ i j, i < j ∧ j < N ∧ flat_index N i j = m) := by
  refine ⟨fun i j h1 h2 => flat_index_lt i N j h1 h2, ?_, ?_⟩
  · intro i j k l h1 h2 h3 h4 he
    have e1 := unflatten_flat i N j h1 h2
    have e2 := unflatten_flat k N l h3 h4
    rw [he, e2] at e1
    simpa [Prod.ext_iff] using e1.symm
  · intro m hm
    obtain ⟨a1, a2, a3⟩ := unflatten_spec N m hm
    exact ⟨_, _, a1, a2, a3⟩

/-- Witness for C1 at the concrete corpus size N = 4. -/
theorem flat_index_bijection_witness :
    2 ≤ 4 ∧
    ((∀ i j, i < j → j < 4 → flat_index 4 i j < 4 * (4 - 1) / 2) ∧
     (∀ i j k l, i < j → j < 4 → k < l → l < 4 →
       flat_index 4 i j = flat_index 4 k l → i = k ∧ j = l) ∧
     (∀ m, m < 4 * (4 - 1) / 2 →
       ∃ i j, i < j ∧ j < 4 ∧ flat_index 4 i j = m)) :=
  ⟨by norm_num, flat_index_bijection 4 (by norm_num)⟩

theorem foldl_setEntry_not_mem (L : List (ℕ × ℕ × ℚ)) (i j : ℕ) :
    ∀ m, (∀ it ∈ L, ¬(i = it.1 ∧ j = it.2.1)) →
      (L.foldl setEntry m) i j = m i j := by
  induction L with
  | nil => intro m _; rfl
  | cons a L ih =>
    intro m h
    simp only [List.foldl_cons]
    rw [ih _ fun it hit => h it (List.mem_cons_of_mem a hit)]
    unfold setEntry
    rw [if_neg (h a (List.mem_cons_self a L))]

theorem foldl_setEntry_mem (L : List (ℕ × ℕ × ℚ)) (i j : ℕ) (v : ℚ) :
    ∀ m, (∀ it ∈ L, i = it.1 → j = it.2.1 → it.2.2 = v) →
      (∃ it ∈ L, i = it.1 ∧ j = it.2.1) →
      (L.foldl setEntry m) i j = v := by
  induction L with
  | nil => intro m _ hmem; simp at hmem
  | cons a L ih =>
    intro m hval hmem
    simp only [List.foldl_cons]
    by_cases hrest : ∃ it ∈ L, i = it.1 ∧ j = it.2.1
    · exact ih _ (fun it hit => hval it (List.mem_cons_of_mem a hit)) hrest
    · have ha : i = a.1 ∧ j = a.2.1 := by
        rcases hmem with ⟨it, hit, h1, h2⟩
        rcases List.mem_cons.mp hit with rfl | hmem2
        · exact ⟨h1, h2⟩
        · exact absurd ⟨it, hmem2, h1, h2⟩ hrest
      have hv := hval a (List.mem_cons_self a L) ha.1 ha.2
      rw [foldl_setEntry_not_mem L i j _ fun it hit hc => hrest ⟨it, hit, hc⟩]
      unfold setEntry
      rw [if_pos ha, hv]

theorem mem_pairItems (N : ℕ) (d : ℕ → ℕ → ℚ) (it : ℕ × ℕ × ℚ) :
    it ∈ pairItems N d ↔
      it.1 < it.2.1 ∧ it.2.1 < N ∧ it.2.2 = d it.1 it.2.1 := by
  obtain ⟨a, b, v⟩ := it
  simp only [pairItems, proximity_parallel, List.mem_flatMap, List.mem_map,
    List.mem_range, List.mem_range'_1]
  constructor
  · rintro ⟨i, hi, j, ⟨hj1, hj2⟩, he⟩
    obtain ⟨rfl, rfl, rfl⟩ : i = a ∧ j = b ∧ d i j = v := by
      simpa [Prod.ext_iff] using he
    refine ⟨by omega, by omega, rfl⟩
  · rintro ⟨h1, h2, rfl⟩
    exact ⟨a, by omega, b, ⟨by omega, by omega⟩, rfl⟩

theorem upper_closed (N : ℕ) (d : ℕ → ℕ → ℚ) (i j : ℕ) :
    ((pairItems N d).foldl setEntry fun _ _ => 0) i j =
      if i < j ∧ j < N then d i j else 0 := by
  by_cases h : i < j ∧ j < N
  · rw [if_pos h]
    apply foldl_setEntry_mem
    · intro it hit h1 h2
      have hm := (mem_pairItems N d it).mp hit
      rw [hm.2.2, ← h1, ← h2]
    · exact ⟨(i, j, d i j), (mem_pairItems N d _).mpr ⟨h.1, h.2, rfl⟩, rfl, rfl⟩
  · rw [if_neg h]
    apply foldl_setEntry_not_mem
    intro it hit hc
    have hm := (mem_pairItems N d it).mp hit
    exact h (by rw [hc.1, hc.2]; exact ⟨hm.1, hm.2.1⟩)

/-- C2: for every corpus, the matrix produced by `calc_proximity_matrix`
(under its multiprocessing guard) is square of the corpus size N (all
entries outside the N x N block are zero), symmetric, has an exactly-zero
diagonal, and holds the pairwise distance d i j at every off-diagonal
in-range entry. -/
theorem calc_proximity_matrix_symmetric (d : ℕ → ℕ → ℚ) (N : ℕ) :
    ∃ M, calc_proximity_matrix d N "__main__" = some M ∧
      (∀ i j, M i j = M j i) ∧
      (∀ i, M i i = 0) ∧
      (∀ i j, i < j → j < N → M i j = d i j) ∧
      (∀ i j, N ≤ i ∨ N ≤ j → M i j = 0) := by
  refine ⟨fun i j =>
      ((pairItems N d).foldl setEntry fun _ _ => 0) i j +
      ((pairItems N d).foldl setEntry fun _ _ => 0) j i,
    by simp [calc_proximity_matrix], ?_, ?_, ?_, ?_⟩
  · intro i j
    simp only [upper_closed]
    exact add_comm _ _
  · intro i
    simp only [upper_closed]
    simp
  · intro i j h1 h2
    simp only [upper_closed]
    rw [if_pos ⟨h1, h2⟩, if_neg (by omega), add_zero]
  · intro i j h
    simp only [upper_closed]
    rw [if_neg (by omega), if_neg (by omega), add_zero]

theorem zipWith_append_getD (rows : List (List ℚ)) :
    ∀ (xs : List ℚ) (i : ℕ), i < rows.length → i < xs.length →
      (List.zipWith (fun row x => row ++ [x]) rows xs).getD i [] =
        rows.getD i [] ++ [xs.getD i 0] := by
  induction rows with
  | nil => intro xs i h1 _; simp at h1
  | cons r rows ih =>
    intro xs i h1 h2
    cases xs with
    | nil => simp at h2
    | cons x xs =>
      cases i with
      | zero => rfl
      | succ i =>
        simp only [List.zipWith_cons_cons, List.getD_cons_succ]
        exact ih xs i (by simpa using h1) (by simpa using h2)

theorem mem_zipWith_append (B : List ℚ) (r : List ℚ) :
    ∀ A : List (List ℚ), r ∈ List.zipWith (fun row x => row ++ [x]) A B →
      ∃ a ∈ A, ∃ b, r = a ++ [b] := by
  induction B with
  | nil => intro A h; cases A <;> simp at h
  | cons b B ih =>
    intro A h
    cases A with
    | nil => simp at h
    | cons a A =>
      simp only [List.zipWith_cons_cons, List.mem_cons] at h
      rcases h with rfl | h
      · exact ⟨a, List.mem_cons_self _ _, b, rfl⟩
      · obtain ⟨a2, ha2, b2, hb⟩ := ih A h
        exact ⟨a2, List.mem_cons_of_mem a ha2, b2, hb⟩

theorem expand_row_lt (M : List (List ℚ)) (v : List ℚ) (N i : ℕ)
    (hM : M.length = N) (hv : v.length = N) (hi : i < N) :
    (expand_distance_matrix M v).getD i [] = M.getD i [] ++ [v.getD i 0] := by
  unfold expand_distance_matrix
  rw [zipWith_append_getD _ _ _ (by simp [hM]; omega) (by simp [hv]; omega)]
  rw [List.getD_append _ _ _ _ (by omega), List.getD_append _ _ _ _ (by omega)]

theorem expand_row_last (M : List (List ℚ)) (v : List ℚ) (N : ℕ)
    (hM : M.length = N) (hv : v.length = N) :
    (expand_distance_matrix M v).getD N [] = v ++ [0] := by
  unfold expand_distance_matrix
  rw [zipWith_append_getD _ _ _ (by simp [hM]) (by simp [hv])]
  rw [List.getD_append_right _ _ _ _ (by omega),
    List.getD_append_right _ _ _ _ (by omega), hM, hv]
  simp

/-- C4: for every N x N matrix M and length-N vector v,
`expand_distance_matrix M v` is an (N+1) x (N+1) matrix whose top-left
N x N block equals M entry for entry, whose last row and last column equal
v in the first N positions, and whose final diagonal entry (N, N) is
zero. -/
theorem expand_distance_matrix_spec (M : List (List ℚ)) (v : List ℚ) (N : ℕ)
    (hM : M.length = N) (hrows : ∀ r ∈ M, r.length = N) (hv : v.length = N) :
    (expand_distance_matrix M v).length = N + 1 ∧
    (∀ r ∈ expand_distance_matrix M v, r.length = N + 1) ∧
    (∀ i j, i < N → j < N →
      matEntry (expand_distance_matrix M v) i j = matEntry M i j) ∧
    (∀ i, i < N →
      matEntry (expand_distance_matrix M v) N i = v.getD i 0 ∧
      matEntry (expand_distance_matrix M v) i N = v.getD i 0) ∧
    matEntry (expand_distance_matrix M v) N N = 0 := by
  have hrowlen : ∀ i, i < N → (M.getD i []).length = N := by
    intro i hi
    apply hrows
    rw [List.getD_eq_getElem M [] (by omega)]
    exact List.getElem_mem _
  refine ⟨?_, ?_, ?_, ?_, ?_⟩
  · unfold expand_distance_matrix
    simp [List.length_zipWith, hM, hv]
  · intro r hr
    obtain ⟨a, ha, b, rfl⟩ := mem_zipWith_append _ r _ hr
    rcases List.mem_append.mp ha with ha | ha
    · simp [hrows a ha]
    · simp at ha
      simp [ha, hv]
  · intro i j hi hj
    unfold matEntry
    rw [expand_row_lt M v N i hM hv hi,
      List.getD_append _ _ _ _ (by rw [hrowlen i hi]; omega)]
  · intro i hi
    constructor
    · unfold matEntry
      rw [expand_row_last M v N hM hv, List.getD_append _ _ _ _ (by omega)]
    · unfold matEntry
      rw [expand_row_lt M v N i hM hv hi,
        List.getD_append_right _ _ _ _ (by rw [hrowlen i hi]),
        hrowlen i hi]
      simp
  · unfold matEntry
    rw [expand_row_last M v N hM hv,
      List.getD_append_right _ _ _ _ (by omega), hv]
    simp

/-- Witness for C4 at a concrete 2 x 2 matrix and length-2 vector. -/
theorem expand_distance_matrix_spec_witness :
    ([[0, 1], [1, 0]] : List (List ℚ)).length = 2 ∧
    (∀ r ∈ ([[0, 1], [1, 0]] : List (List ℚ)), r.length = 2) ∧
    ([5, 7] : List ℚ).length = 2 ∧
    ((expand_distance_matrix [[0, 1], [1, 0]] [5, 7]).length = 2 + 1 ∧
     (∀ r ∈ expand_distance_matrix [[0, 1], [1, 0]] [5, 7], r.length = 2 + 1) ∧
     (∀ i j, i < 2 → j < 2 →
       matEntry (expand_distance_matrix [[0, 1], [1, 0]] [5, 7]) i j =
         matEntry [[0, 1], [1, 0]] i j) ∧
     (∀ i, i < 2 →
       matEntry (expand_distance_matrix [[0, 1], [1, 0]] [5, 7]) 2 i =
         ([5, 7] : List ℚ).getD i 0 ∧
       matEntry (expand_distance_matrix [[0, 1], [1, 0]] [5, 7]) i 2 =
         ([5, 7] : List ℚ).getD i 0) ∧
     matEntry (expand_distance_matrix [[0, 1], [1, 0]] [5, 7]) 2 2 = 0) :=
  ⟨by simp, by simp, by simp,
    expand_distance_matrix_spec [[0, 1], [1, 0]] [5, 7] 2 (by simp)
      (by simp) (by simp)⟩

theorem sublist_dropLast {α : Type} {l1 l2 : List α} (h : l1.Sublist l2) :
    l1.dropLast.Sublist l2.dropLast := by
  induction h with
  | slnil => simp
  | cons a h ih =>
    rename_i r1 r2
    cases r2 with
    | nil =>
      have : r1 = [] := List.sublist_nil.mp h
      simp [this]
    | cons b t =>
      rw [List.dropLast_cons₂]
      exact ih.trans (List.sublist_cons_self a _)
  | cons₂ a h ih =>
    rename_i r1 r2
    cases r2 with
    | nil =>
      have : r1 = [] := List.sublist_nil.mp h
      simp [this]
    | cons b t =>
      cases r1 with
      | nil => simp
      | cons c s =>
        rw [List.dropLast_cons₂, List.dropLast_cons₂]
        exact ih.cons₂ a

theorem head?_dropLast {α : Type} (l : List α) (h : 2 ≤ l.length) :
    l.dropLast.head? = l.head? := by
  match l with
  | a :: b :: t => rw [List.dropLast_cons₂]; rfl

theorem getLast?_drop_of_lt (k : ℕ) : ∀ {α : Type} (l : List α),
    k < l.length → (l.drop k).getLast? = l.getLast? := by
  induction k with
  | zero => intro α l _; rfl
  | succ k ih =>
    intro α l hl
    match l with
    | a :: t =>
      rw [List.drop_succ_cons, ih t (by simpa using hl)]
      match t with
      | b :: s => rfl

theorem sandwich_sublist {α : Type} (a b : α) (X Y : List α)
    (hX : X.head? = some a) (hY : Y.getLast? = some b) :
    [a, b].Sublist (X ++ Y) := by
  match X with
  | x :: X2 =>
    have hx : a = x := by simpa using hX.symm
    subst hx
    rw [List.cons_append]
    exact (List.singleton_sublist.mpr
      (List.mem_append_right X2 (List.mem_of_mem_getLast? hY))).cons₂ a

theorem pickMax_fst_mem (f : ℕ → ℚ) : ∀ (l : List ℕ) (init : ℕ × ℚ),
    (pickMax f l init).1 = init.1 ∨ (pickMax f l init).1 ∈ l := by
  intro l
  induction l with
  | nil => intro init; left; rfl
  | cons a l ih =>
    intro init
    have hstep : pickMax f (a :: l) init =
        pickMax f l (if f a > init.2 then (a, f a) else init) := by
      rw [pickMax, pickMax, List.foldl_cons]
    rw [hstep]
    by_cases h : f a > init.2
    · rw [if_pos h]
      rcases ih (a, f a) with h2 | h2
      · right; rw [h2]; exact List.mem_cons_self a l
      · right; exact List.mem_cons_of_mem a h2
    · rw [if_neg h]
      rcases ih init with h2 | h2
      · left; exact h2
      · right; exact List.mem_cons_of_mem a h2

theorem mem_interiorIdx (n k : ℕ) : k ∈ interiorIdx n ↔ 1 ≤ k ∧ k < n - 1 := by
  simp only [interiorIdx, List.mem_map, List.mem_range]
  constructor
  · rintro ⟨t, ht, rfl⟩; omega
  · intro h; exact ⟨k - 1, by omega, by omega⟩

theorem rdpF_cons_eq (dist : Pt → Pt → Pt → ℚ) (eps : ℚ) (fuel : ℕ)
    (p0 p1 : Pt) (rest : List Pt) :
    rdpF dist eps (fuel + 1) (p0 :: p1 :: rest) =
      if (rdpArgmax dist (p0 :: p1 :: rest) p0
            ((p0 :: p1 :: rest).getLastD p0)).1 ≠ 0 ∧
          (rdpArgmax dist (p0 :: p1 :: rest) p0
            ((p0 :: p1 :: rest).getLastD p0)).2 > eps then
        (rdpF dist eps fuel ((p0 :: p1 :: rest).take
            ((rdpArgmax dist (p0 :: p1 :: rest) p0
              ((p0 :: p1 :: rest).getLastD p0)).1 + 1))).dropLast ++
          rdpF dist eps fuel ((p0 :: p1 :: rest).drop
            (rdpArgmax dist (p0 :: p1 :: rest) p0
              ((p0 :: p1 :: rest).getLastD p0)).1)
      else [p0, (p0 :: p1 :: rest).getLastD p0] := rfl

theorem rdpArgmax_ne_zero_bound (dist : Pt → Pt → Pt → ℚ) (pts : List Pt)
    (p0 lst : Pt) (km : ℕ × ℚ) (hdef : km = rdpArgmax dist pts p0 lst)
    (h : km.1 ≠ 0) : 1 ≤ km.1 ∧ km.1 < pts.length - 1 := by
  rcases hI : interiorIdx pts.length with _ | ⟨c, cs⟩
  · have he : rdpArgmax dist pts p0 lst = (0, 0) := by
      unfold rdpArgmax; rw [hI]
    rw [hdef, he] at h
    simp at h
  · have he : rdpArgmax dist pts p0 lst =
        pickMax (fun i => dist (pts.getD i p0) p0 lst) cs
          (c, dist (pts.getD c p0) p0 lst) := by
      unfold rdpArgmax; rw [hI]
    have hm := pickMax_fst_mem (fun i => dist (pts.getD i p0) p0 lst) cs
      (c, dist (pts.getD c p0) p0 lst)
    rw [← he, ← hdef] at hm
    have hmem : km.1 ∈ interiorIdx pts.length := by
      rw [hI]
      rcases hm with h2 | h2
      · rw [h2]; exact List.mem_cons_self c cs
      · exact List.mem_cons_of_mem c h2
    rw [mem_interiorIdx] at hmem
    omega

theorem rdpF_spec (dist : Pt → Pt → Pt → ℚ) (eps : ℚ) :
    ∀ (fuel : ℕ) (pts : List Pt),
      (rdpF dist eps fuel pts).Sublist pts ∧
      (rdpF dist eps fuel pts).head? = pts.head? ∧
      (rdpF dist eps fuel pts).getLast? = pts.getLast? ∧
      (2 ≤ pts.length → 2 ≤ (rdpF dist eps fuel pts).length) := by
  intro fuel
  induction fuel with
  | zero =>
    intro pts
    exact ⟨List.Sublist.refl _, rfl, rfl, fun h => h⟩
  | succ fuel ih =>
    intro pts
    match pts with
    | [] => exact ⟨List.Sublist.refl _, rfl, rfl, by intro h; simp at h⟩
    | [p] => exact ⟨List.Sublist.refl _, rfl, rfl, by intro h; simp at h⟩
    | p0 :: p1 :: rest =>
      rw [rdpF_cons_eq]
      set lst := (p0 :: p1 :: rest).getLastD p0 with hlstdef
      set km := rdpArgmax dist (p0 :: p1 :: rest) p0 lst with hkmdef
      have hlen : (p0 :: p1 :: rest).length = rest.length + 2 := by simp
      by_cases hc : km.1 ≠ 0 ∧ km.2 > eps
      · rw [if_pos hc]
        have hkb := rdpArgmax_ne_zero_bound dist (p0 :: p1 :: rest) p0 lst
          km hkmdef hc.1
        have hk1 : 1 ≤ km.1 := hkb.1
        have hk2 : km.1 < rest.length + 1 := by omega
        obtain ⟨iha1, iha2, iha3, iha4⟩ := ih ((p0 :: p1 :: rest).take (km.1 + 1))
        obtain ⟨ihb1, ihb2, ihb3, ihb4⟩ := ih ((p0 :: p1 :: rest).drop km.1)
        have hlenT : ((p0 :: p1 :: rest).take (km.1 + 1)).length = km.1 + 1 := by
          rw [List.length_take]
          omega
        have hlenD : ((p0 :: p1 :: rest).drop km.1).length =
            rest.length + 2 - km.1 := by
          rw [List.length_drop, hlen]
        have hA2 : 2 ≤ (rdpF dist eps fuel
            ((p0 :: p1 :: rest).take (km.1 + 1))).length :=
          iha4 (by omega)
        have hB2 : 2 ≤ (rdpF dist eps fuel
            ((p0 :: p1 :: rest).drop km.1)).length :=
          ihb4 (by omega)
        refine ⟨?_, ?_, ?_, ?_⟩
        · have s1 := sublist_dropLast iha1
          have eq1 : ((p0 :: p1 :: rest).take (km.1 + 1)).dropLast =
              (p0 :: p1 :: rest).take km.1 := by
            rw [List.dropLast_eq_take, List.take_take, hlenT]
            congr 1
            omega
          rw [eq1] at s1
          have s2 := List.Sublist.append s1 ihb1
          rwa [List.take_append_drop] at s2
        · rw [List.head?_append_of_ne_nil _
            (List.length_pos.mp (by rw [List.length_dropLast]; omega))]
          rw [head?_dropLast _ hA2, iha2, List.take_succ_cons]
          rfl
        · rw [List.getLast?_append_of_ne_nil _
            (List.length_pos.mp (by omega))]
          rw [ihb3, getLast?_drop_of_lt km.1 _ (by omega)]
        · intro _
          rw [List.length_append, List.length_dropLast]
          omega
      · rw [if_neg hc]
        have hgl : (p0 :: p1 :: rest).getLast? = some lst := by
          rw [hlstdef, List.getLastD_eq_getLast?,
            List.getLast?_eq_getLast_of_ne_nil (List.cons_ne_nil p0 (p1 :: rest))]
          rfl
        refine ⟨?_, rfl, ?_, ?_⟩
        · have hmem : lst ∈ p1 :: rest :=
            List.mem_of_mem_getLast? (show lst ∈ (p1 :: rest).getLast? from hgl)
          exact (List.singleton_sublist.mpr hmem).cons₂ p0
        · rw [hgl]
          rfl
        · intro _
          simp

theorem rdpF_mono (dist : Pt → Pt → Pt → ℚ) (e1 e2 : ℚ) (h : e1 ≤ e2) :
    ∀ (fuel : ℕ) (pts : List Pt),
      (rdpF dist e2 fuel pts).Sublist (rdpF dist e1 fuel pts) := by
  intro fuel
  induction fuel with
  | zero => intro pts; exact List.Sublist.refl _
  | succ fuel ih =>
    intro pts
    match pts with
    | [] => exact List.Sublist.refl _
    | [p] => exact List.Sublist.refl _
    | p0 :: p1 :: rest =>
      rw [rdpF_cons_eq, rdpF_cons_eq]
      set lst := (p0 :: p1 :: rest).getLastD p0 with hlstdef
      set km := rdpArgmax dist (p0 :: p1 :: rest) p0 lst with hkmdef
      have hlen : (p0 :: p1 :: rest).length = rest.length + 2 := by simp
      by_cases hc2 : km.1 ≠ 0 ∧ km.2 > e2
      · have hc1 : km.1 ≠ 0 ∧ km.2 > e1 := ⟨hc2.1, lt_of_le_of_lt h hc2.2⟩
        rw [if_pos hc2, if_pos hc1]
        exact List.Sublist.append (sublist_dropLast (ih _)) (ih _)
      · rw [if_neg hc2]
        by_cases hc1 : km.1 ≠ 0 ∧ km.2 > e1
        · rw [if_pos hc1]
          have hkb := rdpArgmax_ne_zero_bound dist (p0 :: p1 :: rest) p0 lst
            km hkmdef hc1.1
          have hk1 : 1 ≤ km.1 := hkb.1
          have hk2 : km.1 < rest.length + 1 := by omega
          obtain ⟨iha1, iha2, iha3, iha4⟩ :=
            rdpF_spec dist e1 fuel ((p0 :: p1 :: rest).take (km.1 + 1))
          obtain ⟨ihb1, ihb2, ihb3, ihb4⟩ :=
            rdpF_spec dist e1 fuel ((p0 :: p1 :: rest).drop km.1)
          have hlenT : ((p0 :: p1 :: rest).take (km.1 + 1)).length =
              km.1 + 1 := by
            rw [List.length_take]
            omega
          have hlenD : ((p0 :: p1 :: rest).drop km.1).length =
              rest.length + 2 - km.1 := by
            rw [List.length_drop, hlen]
          have hA2 : 2 ≤ (rdpF dist e1 fuel
              ((p0 :: p1 :: rest).take (km.1 + 1))).length :=
            iha4 (by omega)
          have hB2 : 2 ≤ (rdpF dist e1 fuel
              ((p0 :: p1 :: rest).drop km.1)).length :=
            ihb4 (by omega)
          apply sandwich_sublist
          · rw [head?_dropLast _ hA2, iha2, List.take_succ_cons]
            rfl
          · rw [ihb3, getLast?_drop_of_lt km.1 _ (by omega)]
            rw [hlstdef, List.getLastD_eq_getLast?,
              List.getLast?_eq_getLast_of_ne_nil
                (List.cons_ne_nil p0 (p1 :: rest))]
            rfl
        · rw [if_neg hc1]

/-- C7: for every perpendicular-distance function, every epsilon and every
input point sequence, `compute_compressed_voyage` returns the input voyage
id together with an ordered subsequence of the input coordinates whose
length is at most the input length and whose first and last points equal
the first and last points of the input. -/
theorem compute_compressed_voyage_subsequence (dist : Pt → Pt → Pt → ℚ)
    (vid : String) (coords : List Pt) (epsilon : ℚ) :
    (compute_compressed_voyage dist vid coords epsilon).1 = vid ∧
    (compute_compressed_voyage dist vid coords epsilon).2.Sublist coords ∧
    (compute_compressed_voyage dist vid coords epsilon).2.length ≤
      coords.length ∧
    (compute_compressed_voyage dist vid coords epsilon).2.head? =
      coords.head? ∧
    (compute_compressed_voyage dist vid coords epsilon).2.getLast? =
      coords.getLast? := by
  have h := rdpF_spec dist epsilon coords.length coords
  exact ⟨rfl, h.1, h.1.length_le, h.2.1, h.2.2.1⟩

/-- C8: for every perpendicular-distance function and every pair of
tolerances epsilon1 <= epsilon2, the simplification at epsilon2 is a
subsequence of the simplification at epsilon1, so the retained point count
is monotonically non-increasing in epsilon. -/
theorem rdp_length_antitone (dist : Pt → Pt → Pt → ℚ) (e1 e2 : ℚ)
    (h : e1 ≤ e2) (pts : List Pt) :
    (rdp dist e2 pts).Sublist (rdp dist e1 pts) ∧
    (rdp dist e2 pts).length ≤ (rdp dist e1 pts).length := by
  have hs := rdpF_mono dist e1 e2 h pts.length pts
  exact ⟨hs, hs.length_le⟩

/-- Witness for C8 at a concrete distance function, tolerances 0 and 1,
and a concrete three-point voyage. -/
theorem rdp_length_antitone_witness :
    (0 : ℚ) ≤ 1 ∧
    ((rdp (fun _ _ _ => 2) 1 [(0, 0), (1, 1), (2, 0)]).Sublist
       (rdp (fun _ _ _ => 2) 0 [(0, 0), (1, 1), (2, 0)]) ∧
     (rdp (fun _ _ _ => 2) 1 [(0, 0), (1, 1), (2, 0)]).length ≤
       (rdp (fun _ _ _ => 2) 0 [(0, 0), (1, 1), (2, 0)]).length) :=
  ⟨by norm_num, rdp_length_antitone (fun _ _ _ => 2) 0 1 (by norm_num) _⟩

/-- C3 counterexample: invoking `predict_single_voyage` with an empty
training corpus and the matching empty 0 x 0 training matrix does not fail:
the source has no emptiness check and no raise statement, the extended
matrix is the 1 x 1 zero matrix, and DBSCAN labels its single point noise
(1 neighbor is fewer than the default min_samples of 5), so the call
returns the degenerate noise label -1 instead of an EmptyCorpusError. -/
theorem predict_single_voyage_empty_returns_label :
    predict_single_voyage (fun _ _ => 0) [] [] [(0, 0)] 12 = -1 := by
  decide

/-- C3 amended: for every DTW distance function, every new voyage and every
clustering radius, `predict_single_voyage` on the empty training corpus
(with its empty 0 x 0 distance matrix) raises nothing and returns the
noise label -1. -/
theorem predict_single_voyage_empty_corpus
    (dtwD : List Pt → List Pt → ℚ) (new_voyage : List Pt) (epsilon : ℚ) :
    predict_single_voyage dtwD [] [] new_voyage epsilon = -1 := by
  by_cases h : (0 : ℚ) ≤ epsilon
  · simp [predict_single_voyage, calc_extra_distance, expand_distance_matrix,
      dbscan_fit_predict, dbscanOuter, isCore, nbhd, matEntry,
      List.range_succ, h]
  · simp [predict_single_voyage, calc_extra_distance, expand_distance_matrix,
      dbscan_fit_predict, dbscanOuter, isCore, nbhd, matEntry,
      List.range_succ, h]

/-- C5: evaluation of the `check_positive` validator at the boundary.  The
validator accepts the value 0 (the pipeline proceeds) even though its own
error message demands positive values, and rejects only strictly negative
values; so a zero tolerance or radius does not fail fast as the spec
requires. -/
theorem check_positive_zero_accepted :
    check_positive 0 = Except.ok 0 ∧
    check_positive (-1) = Except.error "Value should be positive" := by
  constructor <;> rfl

/-- C6: evaluation of the predicted-label assembly of
`do_k_fold_validation` at a one-train-voyage, one-test-voyage fold.  The
k-fold path merges the test binarization into a copy of itself, so the
confusion matrix covers only the test identifiers (voyage "a" from the
train set is dropped), while the single-split path of cluster_predict
covers the union of train and test identifiers. -/
theorem do_k_fold_y_pred_omits_train :
    do_k_fold_y_pred [("a", 0)] [("b", -1)] = [("b", 1)] ∧
    main_split_y_pred [("a", 0)] [("b", -1)] = [("a", 0), ("b", 1)] := by
  constructor <;> rfl

/-- C10: whenever the `name` argument passed to `compress_voyages` or
`calc_proximity_matrix` differs from the string used to mark the main
module, the guarded multiprocessing block is skipped and the function
returns None rather than a corpus dictionary or a distance matrix. -/
theorem name_guard_returns_none (dist : Pt → Pt → Pt → ℚ)
    (voyages : List (String × List Pt)) (epsilon : ℚ) (d : ℕ → ℕ → ℚ)
    (N : ℕ) (name : String) (h : name ≠ "__main__") :
    compress_voyages dist voyages epsilon name = none ∧
    calc_proximity_matrix d N name = none := by
  constructor <;> simp [compress_voyages, calc_proximity_matrix, h]

/-- Witness for C10 at the default argument value "name" used by the
source. -/
theorem name_guard_returns_none_witness :
    ("name" : String) ≠ "__main__" ∧
    (compress_voyages (fun _ _ _ => 0) [] 0 "name" = none ∧
     calc_proximity_matrix (fun _ _ => 0) 0 "name" = none) :=
  ⟨by decide, name_guard_returns_none (fun _ _ _ => 0) [] 0 (fun _ _ => 0)
    0 "name" (by decide)⟩

/-- C9: `predict_single_voyage` leaves the supplied training matrix and
every other previously allocated array unchanged.  At the store level the
call only reads existing arrays and allocates fresh ones, so after the call
every array id allocated before the call holds exactly the value it held
before, and the returned value is the single label computed by the pure
`predict_single_voyage` on the read matrix. -/
theorem predict_single_voyageH_frame (dtwD : List Pt → List Pt → ℚ)
    (h : Heap) (train_voyages : List (String × List Pt)) (matrixId : ℕ)
    (new_voyage : List Pt) (epsilon : ℚ) (M : List (List ℚ)) (i : ℕ)
    (hmi : matrixId < h.next) (hM : h.arrs matrixId = some (NpVal.mat M))
    (hi : i < h.next) :
    (predict_single_voyageH dtwD h train_voyages matrixId new_voyage
        epsilon).2.arrs i = h.arrs i ∧
    (predict_single_voyageH dtwD h train_voyages matrixId new_voyage
        epsilon).1 =
      predict_single_voyage dtwD train_voyages M new_voyage epsilon := by
  have e1 : matrixId ≠ h.next := by omega
  have e3 : i ≠ h.next := by omega
  have e4 : i ≠ h.next + 1 := by omega
  have e5 : i ≠ h.next + 2 := by omega
  have e6 : i ≠ h.next + 3 := by omega
  constructor
  · simp only [predict_single_voyageH, calc_extra_distanceH,
      expand_distance_matrixH, halloc]
    simp [e3, e4, e5, e6]
  · simp only [predict_single_voyageH, calc_extra_distanceH,
      expand_distance_matrixH, halloc, hget]
    simp [e1, hM, asMat, asVec, predict_single_voyage,
      expand_distance_matrix]

/-- Witness for C9 at a concrete one-array store holding the empty 0 x 0
training matrix. -/
theorem predict_single_voyageH_frame_witness :
    (0 : ℕ) < 1 ∧
    (Heap.mk (fun j => if j = 0 then some (NpVal.mat []) else none) 1).arrs 0 =
      some (NpVal.mat []) ∧
    (0 : ℕ) < 1 ∧
    ((predict_single_voyageH (fun _ _ => 0)
        (Heap.mk (fun j => if j = 0 then some (NpVal.mat []) else none) 1)
        [] 0 [(0, 0)] 12).2.arrs 0 =
      (Heap.mk (fun j => if j = 0 then some (NpVal.mat []) else none) 1).arrs 0 ∧
     (predict_single_voyageH (fun _ _ => 0)
        (Heap.mk (fun j => if j = 0 then some (NpVal.mat []) else none) 1)
        [] 0 [(0, 0)] 12).1 =
       predict_single_voyage (fun _ _ => 0) [] [] [(0, 0)] 12) :=
  ⟨by decide, by decide, by decide,
    predict_single_voyageH_frame (fun _ _ => 0)
      (Heap.mk (fun j => if j = 0 then some (NpVal.mat []) else none) 1)
      [] 0 [(0, 0)] 12 [] 0 (by decide) (by decide) (by decide)⟩
